import Mathlib

/-!
Verification of the CSVit data engine against its specification.

Each component used below is a shallow embedding, translated from the Rust
sources in `src/`:

* `src/backend/loader.rs`   — record indexer (`CsvLoader::build_index`,
  `get_record_line`, `total_records`);
* `src/backend/grid.rs`     — `EditableGrid` with undo/redo;
* `src/backend/editor.rs`   — `EditCommand`;
* `src/backend/analysis.rs` — `ColumnAnalyzer::infer_type`;
* `src/backend/csvi.rs` and `src/backend/formatting.rs` — `.csvi` archive
  codec and the formatting overlay metadata.

Rust `Vec<u8>` file contents are modelled as `List Nat` (one `Nat` per byte),
`String` cell values as Lean `String`, and fallible operations (Rust panics)
as `Option`.
-/

set_option maxHeartbeats 1000000

namespace CSVit

/-! ### Record indexer (src/backend/loader.rs)

`CsvLoader::build_index` scans the byte buffer once, toggling an `in_quote`
flag on every `"` byte (34); an LF byte (10) outside quotes ends a record and
pushes offset `i + 1` provided `i + 1 < len`; CR (13) and all other bytes do
nothing.  The first record always starts at offset 0 (nonempty buffer). -/

/-- The scanning loop of `CsvLoader::build_index`, translated byte for byte.
`len` is the total buffer length, the list argument is the suffix of the
buffer starting at position `i`, and `inq` is the `in_quote` flag.  Returns
the offsets pushed from position `i` onwards. -/
def scanNl (len : Nat) : List Nat → Nat → Bool → List Nat
  | [], _, _ => []
  | b :: rest, i, inq =>
    if b = 34 then scanNl len rest (i + 1) (!inq)
    else if b = 10 then
      if inq then scanNl len rest (i + 1) inq
      else if i + 1 < len then (i + 1) :: scanNl len rest (i + 1) inq
      else scanNl len rest (i + 1) inq
    else scanNl len rest (i + 1) inq

/-- `CsvLoader::build_index`: empty buffer yields no offsets; otherwise the
first record starts at 0 and the scan provides the remaining offsets. -/
def buildIndex (data : List Nat) : List Nat :=
  if data.isEmpty then [] else 0 :: scanNl data.length data 0 false

/-- `CsvLoader::total_records`: stored as `offsets.len()` by `CsvLoader::new`. -/
def totalRecords (data : List Nat) : Nat :=
  (buildIndex data).length

/-- `CsvLoader::get_record_line`: record `index` spans from its offset to the
next offset (or to end of buffer for the last record); `none` when the index
is out of range or the span is empty. -/
def getRecordLine (data : List Nat) (offsets : List Nat) (index : Nat) : Option (List Nat) :=
  if index ≥ offsets.length then none
  else
    let start := offsets.getD index 0
    let stop := if index + 1 < offsets.length then offsets.getD (index + 1) 0 else data.length
    if start ≥ data.length ∨ start ≥ stop then none
    else some ((data.drop start).take (stop - start))

/-- The per-record byte spans determined by an offset table, as described by
the specification: record `i` spans `[offset i, offset (i+1))` and the last
record spans `[offset last, end-of-buffer)`. -/
def recordSpans (data : List Nat) : List Nat → List (List Nat)
  | [] => []
  | [o] => [data.drop o]
  | o₁ :: o₂ :: rest => (data.drop o₁).take (o₂ - o₁) :: recordSpans data (o₂ :: rest)

theorem length_recordSpans (data : List Nat) :
    ∀ offsets : List Nat, (recordSpans data offsets).length = offsets.length
  | [] => rfl
  | [_] => rfl
  | _ :: o₂ :: rest => by
    simpa [recordSpans] using length_recordSpans data (o₂ :: rest)

/-- Every offset produced by the scan is strictly greater than the scan's
starting position and strictly below the buffer length. -/
theorem scanNl_mem_bounds (len : Nat) :
    ∀ (l : List Nat) (i : Nat) (inq : Bool) (o : Nat),
      o ∈ scanNl len l i inq → i < o ∧ o < len := by
  intro l
  induction l with
  | nil => intro i inq o h; simp [scanNl] at h
  | cons b rest ih =>
    intro i inq o h
    simp only [scanNl] at h
    split at h
    · exact ⟨Nat.lt_of_succ_lt (ih (i + 1) (!inq) o h).1, (ih (i + 1) (!inq) o h).2⟩
    · split at h
      · split at h
        · exact ⟨Nat.lt_of_succ_lt (ih (i + 1) inq o h).1, (ih (i + 1) inq o h).2⟩
        · split at h
          · rcases List.mem_cons.mp h with h | h
            · subst h; exact ⟨Nat.lt_succ_self i, by assumption⟩
            · exact ⟨Nat.lt_of_succ_lt (ih (i + 1) inq o h).1, (ih (i + 1) inq o h).2⟩
          · exact ⟨Nat.lt_of_succ_lt (ih (i + 1) inq o h).1, (ih (i + 1) inq o h).2⟩
      · exact ⟨Nat.lt_of_succ_lt (ih (i + 1) inq o h).1, (ih (i + 1) inq o h).2⟩

/-- The offsets produced by the scan are strictly increasing. -/
theorem scanNl_chain (len : Nat) :
    ∀ (l : List Nat) (i : Nat) (inq : Bool),
      List.Chain' (· < ·) (scanNl len l i inq) := by
  intro l
  induction l with
  | nil => intro i inq; simp [scanNl]
  | cons b rest ih =>
    intro i inq
    simp only [scanNl]
    split
    · exact ih (i + 1) (!inq)
    · split
      · split
        · exact ih (i + 1) inq
        · split
          · refine List.chain'_cons'.mpr ⟨?_, ih (i + 1) inq⟩
            intro y hy
            exact (scanNl_mem_bounds len rest (i + 1) inq y (List.mem_of_mem_head? hy)).1
          · exact ih (i + 1) inq
      · exact ih (i + 1) inq

/-- The offset table is strictly increasing. -/
theorem buildIndex_chain (data : List Nat) :
    List.Chain' (· < ·) (buildIndex data) := by
  unfold buildIndex
  split
  · simp
  · refine List.chain'_cons'.mpr ⟨?_, scanNl_chain _ _ _ _⟩
    intro y hy
    exact (scanNl_mem_bounds _ _ _ _ y (List.mem_of_mem_head? hy)).1

/-- Every offset in the table lies inside the buffer. -/
theorem buildIndex_mem_lt (data : List Nat) :
    ∀ o ∈ buildIndex data, o < data.length := by
  intro o ho
  unfold buildIndex at ho
  split at ho
  · simp at ho
  · rcases List.mem_cons.mp ho with h | h
    · subst h
      have : data ≠ [] := by
        intro h'; subst h'; simp at *
      exact List.length_pos.mpr this
    · exact (scanNl_mem_bounds _ _ _ _ o h).2

/-- Concatenating spans of a `≤`-sorted offset list starting at `o`
reconstructs the buffer from position `o` on. -/
theorem recordSpans_flatten (data : List Nat) :
    ∀ (rest : List Nat) (o : Nat), List.Chain' (· ≤ ·) (o :: rest) →
      (recordSpans data (o :: rest)).flatten = data.drop o := by
  intro rest
  induction rest with
  | nil => intro o _; simp [recordSpans]
  | cons o₂ rest₂ ih =>
    intro o hchain
    have h₁₂ : o ≤ o₂ := (List.chain'_cons.mp hchain).1
    have htail := (List.chain'_cons.mp hchain).2
    have ihr := ih o₂ htail
    simp only [recordSpans, List.flatten_cons, ihr]
    calc (data.drop o).take (o₂ - o) ++ data.drop o₂
        = (data.drop o).take (o₂ - o) ++ (data.drop o).drop (o₂ - o) := by
          rw [List.drop_drop]
          congr 2
          omega
      _ = data.drop o := List.take_append_drop _ _

/-- Looking up record `n + 1` in an offset table `x :: l` is the same as
looking up record `n` in the table `l`. -/
theorem getRecordLine_cons_succ (data : List Nat) (x : Nat) (l : List Nat) (n : Nat) :
    getRecordLine data (x :: l) (n + 1) = getRecordLine data l n := by
  simp only [getRecordLine, List.length_cons, List.getD_cons_succ, ge_iff_le,
    Nat.succ_le_succ_iff, Nat.succ_lt_succ_iff]

/-- `getRecordLine` agrees with the offset-table spans, for a strictly
increasing in-bounds offset table. -/
theorem getRecordLine_eq_span (data : List Nat) :
    ∀ (offsets : List Nat) (i : Nat),
      List.Chain' (· < ·) offsets → (∀ o ∈ offsets, o < data.length) →
      getRecordLine data offsets i = (recordSpans data offsets).get? i := by
  intro offsets
  induction offsets with
  | nil => intro i _ _; simp [getRecordLine, recordSpans]
  | cons o₁ tail ih =>
    intro i hchain hmem
    cases i with
    | zero =>
      have ho₁ : o₁ < data.length := hmem o₁ (by simp)
      cases tail with
      | nil =>
        simp only [getRecordLine, recordSpans]
        rw [if_neg (by simp), if_neg (by simp; omega)]
        simp only [List.getD_cons_zero, List.get?]
        congr 1
        have hlen : (data.drop o₁).length = data.length - o₁ := by simp
        calc (data.drop o₁).take (data.length - o₁)
            = (data.drop o₁).take (data.drop o₁).length := by rw [hlen]
          _ = data.drop o₁ := List.take_length _
      | cons o₂ rest₂ =>
        have h₁₂ : o₁ < o₂ := (List.chain'_cons.mp hchain).1
        simp only [getRecordLine, recordSpans]
        rw [if_neg (by simp)]
        have hlen : (0 : Nat) + 1 < (o₁ :: o₂ :: rest₂).length := by simp
        rw [if_pos hlen]
        simp only [List.getD_cons_zero, List.getD_cons_succ]
        rw [if_neg (by omega)]
        simp [List.get?]
    | succ n =>
      have htail : List.Chain' (· < ·) tail := hchain.tail
      have hmem' : ∀ o ∈ tail, o < data.length := by
        intro o ho; exact hmem o (List.mem_cons_of_mem _ ho)
      rw [getRecordLine_cons_succ, ih n htail hmem']
      cases tail with
      | nil => simp [recordSpans, List.get?]
      | cons o₂ rest₂ => simp [recordSpans, List.get?]

/-- C3: the offset table has exactly one entry per record (the table length
equals the total record count), concatenating the byte spans of all records
(span `i` = `[offset i, offset (i+1))`, last span = `[offset last, end)`)
reconstructs the buffer exactly — no gaps, no overlaps — and
`get_record_line` serves exactly those spans. -/
theorem buildIndex_reconstructs (data : List Nat) :
    (recordSpans data (buildIndex data)).length = totalRecords data ∧
    (recordSpans data (buildIndex data)).flatten = data ∧
    ∀ i : Nat,
      getRecordLine data (buildIndex data) i = (recordSpans data (buildIndex data)).get? i := by
  refine ⟨length_recordSpans data (buildIndex data), ?_, ?_⟩
  · by_cases h : data.isEmpty
    · have : data = [] := List.isEmpty_iff.mp h
      subst this
      simp [buildIndex, recordSpans]
    · have hb : buildIndex data = 0 :: scanNl data.length data 0 false := by
        simp [buildIndex, h]
      have hchain : List.Chain' (· ≤ ·) (buildIndex data) :=
        (buildIndex_chain data).imp fun a b hlt => Nat.le_of_lt hlt
      rw [hb] at hchain ⊢
      rw [recordSpans_flatten data _ 0 hchain]
      simp
  · intro i
    exact getRecordLine_eq_span data (buildIndex data) i (buildIndex_chain data)
      (buildIndex_mem_lt data)

/-- The bytes of `a,b,"c\nd"\n1,2,3` (a quoted field containing a real
newline at position 6, then a record separator at position 9). -/
def quotedNewlineExample : List Nat :=
  [97, 44, 98, 44, 34, 99, 10, 100, 34, 10, 49, 44, 50, 44, 51]

/-- C6: a newline byte seen while the scanner is inside a quoted span never
ends a record (the scan continues unchanged), and indexing the bytes of
`a,b,"c\nd"\n1,2,3` produces exactly 2 records, not 3. -/
theorem quoted_newline_one_record :
    (∀ (len : Nat) (rest : List Nat) (i : Nat),
        scanNl len (10 :: rest) i true = scanNl len rest (i + 1) true) ∧
    totalRecords quotedNewlineExample = 2 ∧
    buildIndex quotedNewlineExample = [0, 10] := by
  refine ⟨?_, by decide, by decide⟩
  intro len rest i
  simp [scanNl]

/-! ### Column profiler (src/backend/analysis.rs)

`ColumnAnalyzer::infer_type` classifies each non-null value by trying, in
order, `parse::<i64>()`, `parse::<f64>()`, the boolean vocabulary
(lower-cased equality with true/false/yes/no/1/0), a loose 3-part date
pattern split on `-`/`/` with `parse::<u32>()` parts, and finally plain
text; it then compares each class ratio against the literal `0.8`. -/

/-- `ColumnAnalyzer`'s `InferredType` enum. -/
inductive InferredType where
  | integer
  | float
  | boolean
  | date
  | text
  | empty
  | mixed
deriving DecidableEq, Repr

/-- Which counter of the `infer_type` loop a value increments. -/
inductive ValClass where
  | int
  | float
  | bool
  | date
  | text
deriving DecidableEq, Repr

/-- A nonempty all-digit character list, folded to its numeric value
(the digit-consuming core of Rust's integer `from_str`). -/
def parseNatDigits (l : List Char) : Option Nat :=
  if !l.isEmpty && l.all Char.isDigit then
    some (l.foldl (fun a c => a * 10 + (c.toNat - 48)) 0)
  else none

/-- `val.parse::<i64>().is_ok()`: optional sign, at least one ASCII digit,
and the value within the `i64` range. -/
def isI64 (s : String) : Bool :=
  let core := fun (neg : Bool) (r : List Char) =>
    match parseNatDigits r with
    | none => false
    | some n =>
      if neg then decide (n ≤ 9223372036854775808)
      else decide (n ≤ 9223372036854775807)
  match s.data with
  | '+' :: r => core false r
  | '-' :: r => core true r
  | r => core false r

/-- `parse::<u32>().is_ok()` on a character slice: optional `+`, at least one
digit, value within the `u32` range. -/
def isU32 (l : List Char) : Bool :=
  let core := fun (r : List Char) =>
    match parseNatDigits r with
    | none => false
    | some n => decide (n ≤ 4294967295)
  match l with
  | '+' :: r => core r
  | r => core r

/-- Strip one leading `+`/`-` sign. -/
def stripSign (l : List Char) : List Char :=
  match l with
  | '+' :: r => r
  | '-' :: r => r
  | r => r

/-- Split at the first character satisfying `p`: the prefix before it and,
when found, the remainder after it. -/
def splitFirst (p : Char → Bool) : List Char → List Char × Option (List Char)
  | [] => ([], none)
  | c :: rest =>
    if p c then ([], some rest)
    else
      match splitFirst p rest with
      | (pre, post) => (c :: pre, post)

/-- The special float spellings accepted by Rust's `f64::from_str`
(ASCII-case-insensitive `inf`, `infinity`, `nan`). -/
def isInfNan (l : List Char) : Bool :=
  let low := l.map Char.toLower
  low == "inf".data || low == "infinity".data || low == "nan".data

/-- A nonempty run of ASCII digits. -/
def digitsNonempty (l : List Char) : Bool :=
  !l.isEmpty && l.all Char.isDigit

/-- The mantissa grammar of `f64::from_str`: digits, optionally with one `.`,
with at least one digit overall. -/
def mantissaOk (m : List Char) : Bool :=
  match splitFirst (fun c => c = '.') m with
  | (ip, none) => digitsNonempty ip
  | (ip, some fp) =>
    ip.all Char.isDigit && fp.all Char.isDigit && (!ip.isEmpty || !fp.isEmpty)

/-- The exponent grammar of `f64::from_str`: optional sign, then digits. -/
def expOk (e : List Char) : Bool :=
  digitsNonempty (stripSign e)

/-- `val.parse::<f64>().is_ok()`: Rust's decimal float grammar (overflowing
values still parse, to an infinity, so acceptance is purely grammatical). -/
def isF64 (s : String) : Bool :=
  let l := stripSign s.data
  isInfNan l ||
    (match splitFirst (fun c => c = 'e' || c = 'E') l with
     | (m, none) => mantissaOk m
     | (m, some e) => mantissaOk m && expOk e)

/-- Character-wise lowercasing (models `str::to_lowercase`; the vocabulary it
is compared against below is ASCII, where the two agree). -/
def toLowerStr (s : String) : String :=
  String.mk (s.data.map Char.toLower)

/-- The boolean vocabulary test: `val.to_lowercase()` equals one of
true/false/yes/no/1/0. -/
def isBoolWord (s : String) : Bool :=
  let lower := toLowerStr s
  lower == "true" || lower == "false" || lower == "yes" || lower == "no" ||
    lower == "1" || lower == "0"

/-- Split on every `-` or `/` (Rust `split` semantics: empty pieces kept). -/
def splitDashSlash : List Char → List (List Char)
  | [] => [[]]
  | c :: rest =>
    match splitDashSlash rest with
    | [] => [[]]
    | h :: t =>
      if c = '-' || c = '/' then [] :: h :: t else (c :: h) :: t

/-- The loose date test of `infer_type`: contains `-` or `/`, and splitting
on those characters yields exactly 3 parts, each parsing as `u32`. -/
def isDateLike (s : String) : Bool :=
  if s.data.any (fun c => c = '-' || c = '/') then
    let parts := splitDashSlash s.data
    parts.length == 3 && parts.all isU32
  else false

/-- The per-value classification of the `infer_type` loop, with its priority
order (integer, then float, then boolean, then date, then text). -/
def classify (v : String) : ValClass :=
  if isI64 v then .int
  else if isF64 v then .float
  else if isBoolWord v then .bool
  else if isDateLike v then .date
  else .text

/-- `ColumnAnalyzer::infer_type`, returning the inferred column type.  The
Rust code compares `count as f64 / total as f64` against the literal `0.8`;
both sides are correctly rounded, `4/5` rounds to the same double as the
literal `0.8`, and for the list lengths a vector can hold the comparison
`(c as f64)/(t as f64) > 0.8` holds exactly when `5 * c > 4 * t`, which is
how the threshold is stated here. -/
def inferType (values : List String) : InferredType :=
  if values.isEmpty then .empty
  else
    let total := values.length
    let intCount := values.countP (fun v => classify v == ValClass.int)
    let floatCount := values.countP (fun v => classify v == ValClass.float)
    let boolCount := values.countP (fun v => classify v == ValClass.bool)
    let dateCount := values.countP (fun v => classify v == ValClass.date)
    let textCount := values.countP (fun v => classify v == ValClass.text)
    if 5 * intCount > 4 * total then .integer
    else if 5 * (intCount + floatCount) > 4 * total then .float
    else if 5 * boolCount > 4 * total then .boolean
    else if 5 * dateCount > 4 * total then .date
    else if textCount > 0 || total == textCount then .text
    else .mixed

/-- A column whose integer fraction is exactly 80% of the non-null count. -/
def boundaryColumn : List String := ["1", "2", "3", "4", "x"]

/-- C5 counterexample: in `["1","2","3","4","x"]` exactly 80% of the values
parse as integers (4 of 5), yet the inferred type is Text, not Integer — the
code's threshold `int_ratio > 0.8` is strict, so the boundary case fails. -/
theorem integer_threshold_boundary_cex :
    boundaryColumn.countP (fun v => classify v == ValClass.int) = 4 ∧
    boundaryColumn.length = 5 ∧
    inferType boundaryColumn = InferredType.text ∧
    InferredType.text ≠ InferredType.integer := by decide

/-- C5 amended: for every non-empty value sequence in which strictly more
than 80% of the values parse as integers, the inferred type is Integer. -/
theorem infer_integer_above_threshold (values : List String)
    (hne : values ≠ [])
    (hdom : 5 * values.countP (fun v => classify v == ValClass.int) > 4 * values.length) :
    inferType values = InferredType.integer := by
  unfold inferType
  rw [if_neg (by simpa using hne)]
  simp only []
  rw [if_pos hdom]

/-- Concrete instance of `infer_integer_above_threshold`. -/
theorem infer_integer_above_threshold_witness :
    ["1", "2", "3", "4", "5"] ≠ ([] : List String) ∧
    inferType ["1", "2", "3", "4", "5"] = InferredType.integer :=
  ⟨by decide, infer_integer_above_threshold _ (by decide) (by decide)⟩

/-! ### Archive codec (src/backend/csvi.rs, src/backend/formatting.rs)

`save_csvi` writes two zip entries, `data.csv` (the grid text) and
`metadata.json` (`serde_json::to_string_pretty` of `CsviMetadata`).  The zip
container is modelled as the pair of entry contents, with the metadata entry
kept as its JSON document (serde_json's text rendering and parsing of a JSON
document are mutually inverse, so the text layer is abstracted away).
Finite `f32` values are modelled as rationals. -/

/-- `CellFormat` (src/backend/formatting.rs): RGBA colours and styles. -/
structure CellFormat where
  bg_color : Option (Nat × Nat × Nat × Nat)
  text_color : Option (Nat × Nat × Nat × Nat)
  bold : Bool
  italic : Bool

/-- `FormatMap`: the `HashMap<(usize, usize), CellFormat>` of per-cell
formats, modelled as an association list (one entry per key; entry order is
the map's iteration order). -/
structure FormatMap where
  cells : List ((Nat × Nat) × CellFormat)

/-- `ViewSettings` (src/backend/csvi.rs). -/
structure ViewSettings where
  scroll_position : ℚ
  selected_cell : Option (Nat × Nat)
  zoom_level : ℚ

/-- `CsviMetadata` (src/backend/csvi.rs). -/
structure CsviMetadata where
  version : Nat
  formatting : FormatMap
  column_names : List String
  column_widths : List ℚ
  view_settings : ViewSettings

/-- JSON documents, as produced by serde_json. -/
inductive Json where
  | null
  | bool (b : Bool)
  | num (q : ℚ)
  | str (s : String)
  | arr (xs : List Json)
  | obj (fields : List (String × Json))

/-- serde_json serializes JSON object keys through its `MapKeySerializer`,
which accepts only strings and integer-like primitives; a `(usize, usize)`
tuple key serializes as a sequence and is rejected with the error
"key must be a string". -/
def serializeTupleKey (_k : Nat × Nat) : Except String String :=
  Except.error "key must be a string"

/-- JSON form of an `Option<[u8; 4]>` colour. -/
def jsonOfRgba (c : Option (Nat × Nat × Nat × Nat)) : Json :=
  match c with
  | none => Json.null
  | some (r, g, b, a) => Json.arr [Json.num r, Json.num g, Json.num b, Json.num a]

/-- JSON form of a `CellFormat`. -/
def jsonOfCellFormat (f : CellFormat) : Json :=
  Json.obj [("bg_color", jsonOfRgba f.bg_color), ("text_color", jsonOfRgba f.text_color),
    ("bold", Json.bool f.bold), ("italic", Json.bool f.italic)]

/-- Serialization of the `cells` map of a `FormatMap`: each key must
serialize as a string; the first tuple key aborts with an error. -/
def serializeFormatMap (fm : FormatMap) : Except String Json := do
  let entries ← fm.cells.mapM (fun kv => do
    let k ← serializeTupleKey kv.1
    pure (k, jsonOfCellFormat kv.2))
  pure (Json.obj [("cells", Json.obj entries)])

/-- JSON form of `ViewSettings`. -/
def jsonOfViewSettings (v : ViewSettings) : Json :=
  Json.obj [("scroll_position", Json.num v.scroll_position),
    ("selected_cell",
      match v.selected_cell with
      | none => Json.null
      | some (r, c) => Json.arr [Json.num r, Json.num c]),
    ("zoom_level", Json.num v.zoom_level)]

/-- `serde_json::to_string_pretty(metadata)`, up to the JSON document. -/
def serializeMetadata (m : CsviMetadata) : Except String Json := do
  let fmt ← serializeFormatMap m.formatting
  pure (Json.obj [("version", Json.num m.version), ("formatting", fmt),
    ("column_names", Json.arr (m.column_names.map Json.str)),
    ("column_widths", Json.arr (m.column_widths.map Json.num)),
    ("view_settings", jsonOfViewSettings m.view_settings)])

/-- `save_csvi(path, csv_data, metadata)`: on success the archive holds the
`data.csv` text and the `metadata.json` document; a serde_json failure is
surfaced with the source's "Failed to serialize metadata" context. -/
def saveCsvi (csvData : String) (m : CsviMetadata) : Except String (String × Json) :=
  match serializeMetadata m with
  | Except.error _ => Except.error "Failed to serialize metadata"
  | Except.ok j => Except.ok (csvData, j)

/-- A metadata value whose formatting overlay holds a single (default)
cell format at `(0, 0)`. -/
def oneCellMetadata : CsviMetadata :=
  { version := 1
    formatting := ⟨[((0, 0), ⟨none, none, false, false⟩)]⟩
    column_names := []
    column_widths := []
    view_settings := ⟨0, none, 0⟩ }

/-- The `CsviMetadata::new()` value: empty overlay, empty lists. -/
def emptyMetadata : CsviMetadata :=
  { version := 1
    formatting := ⟨[]⟩
    column_names := []
    column_widths := []
    view_settings := ⟨0, none, 0⟩ }

/-- C2 (code bug): saving any metadata with a non-empty formatting overlay
fails outright — serde_json cannot serialize the tuple-keyed `cells` map —
so `save_csvi` followed by `load_csvi` cannot round-trip any non-empty
overlay; with an empty overlay the save succeeds. -/
theorem save_csvi_nonempty_formatting_fails :
    saveCsvi "a,b\n1,2\n" oneCellMetadata = Except.error "Failed to serialize metadata" ∧
    (saveCsvi "a,b\n1,2\n" emptyMetadata).isOk = true := by
  exact ⟨rfl, rfl⟩

/-! ### Editable grid (src/backend/grid.rs, src/backend/editor.rs)

`EditableGrid` owns `headers`, `rows`, the two command stacks and the
`modified` flag.  The Rust `Vec` stacks push/pop at the back and evict at
index 0; they are modelled as lists with the **newest command at the head**,
so push is `cons`, pop takes the head, and evicting the oldest entry is
`dropLast`.  `Vec::insert` panics when the index exceeds the length; those
panics are modelled as `none`. -/

/-- `EditCommand` (src/backend/editor.rs); the Rust field `at` is `idx`. -/
inductive EditCommand where
  | setCell (row col : Nat) (oldValue newValue : String)
  | insertRow (idx : Nat) (data : List String)
  | deleteRow (idx : Nat) (data : List String)
  | insertColumn (idx : Nat) (header : String)
  | deleteColumn (idx : Nat) (header : String) (data : List String)
  | setHeader (col : Nat) (oldValue newValue : String)
deriving DecidableEq, Repr

/-- `EditableGrid` (src/backend/grid.rs). -/
structure EditableGrid where
  headers : List String
  rows : List (List String)
  undoStack : List EditCommand
  redoStack : List EditCommand
  modified : Bool
deriving DecidableEq, Repr

namespace EditableGrid

/-- `EditableGrid::new`. -/
def new (cols rowCount : Nat) : EditableGrid :=
  { headers := (List.range cols).map (fun i => "Column " ++ toString (i + 1))
    rows := List.replicate rowCount (List.replicate cols "")
    undoStack := []
    redoStack := []
    modified := false }

/-- Rust `char::is_whitespace` (the Unicode White_Space code points). -/
def wsChar (c : Char) : Bool :=
  let n := c.toNat
  n == 32 || (decide (9 ≤ n) && decide (n ≤ 13)) || n == 0x85 || n == 0xA0 ||
    n == 0x1680 || (decide (0x2000 ≤ n) && decide (n ≤ 0x200A)) ||
    n == 0x2028 || n == 0x2029 || n == 0x202F || n == 0x205F || n == 0x3000

/-- Rust `str::trim`: drop whitespace from both ends. -/
def trimChars (l : List Char) : List Char :=
  ((l.dropWhile wsChar).reverse.dropWhile wsChar).reverse

/-- The character loop of `EditableGrid::parse_csv_row`: `current` is the
field being accumulated, the flag is `in_quotes`; a `""` inside quotes emits
one quote, an unquoted `,` pushes the trimmed field, and the final field is
pushed (trimmed) at end of input. -/
def parseLoop : List Char → List Char → Bool → List String
  | [], current, _ => [String.mk (trimChars current)]
  | '"' :: rest, current, false => parseLoop rest current true
  | '"' :: '"' :: rest, current, true => parseLoop rest (current ++ ['"']) true
  | '"' :: rest, current, true => parseLoop rest current false
  | ',' :: rest, current, false => String.mk (trimChars current) :: parseLoop rest [] false
  | c :: rest, current, inq => parseLoop rest (current ++ [c]) inq

/-- `EditableGrid::parse_csv_row`. -/
def parseCsvRow (line : List Char) : List String :=
  parseLoop line [] false

/-- Split on every `\n` (pieces in order; a trailing `\n` yields a final
empty piece). -/
def splitOnNewline : List Char → List (List Char)
  | [] => [[]]
  | c :: rest =>
    match splitOnNewline rest with
    | [] => [[]]
    | h :: t => if c = '\n' then [] :: h :: t else (c :: h) :: t

/-- Drop one trailing `\r` (the CR of a CRLF line ending). -/
def stripTrailingCR (l : List Char) : List Char :=
  if l.getLast? = some '\r' then l.dropLast else l

/-- Rust `str::lines`: split on `\n`, strip the CR of each terminated line,
and do not produce a final empty line for a trailing `\n`. -/
def rustLines (s : List Char) : List (List Char) :=
  let ps := splitOnNewline s
  ps.dropLast.map stripTrailingCR ++
    (match ps.getLast? with
     | some [] => []
     | some l => [l]
     | none => [])

/-- `EditableGrid::from_csv`: the first line parses to the headers
(defaulting to empty), every further line to a row. -/
def fromCsv (text : String) : EditableGrid :=
  match rustLines text.data with
  | [] =>
    { headers := [], rows := [], undoStack := [], redoStack := [], modified := false }
  | h :: t =>
    { headers := parseCsvRow h, rows := t.map parseCsvRow,
      undoStack := [], redoStack := [], modified := false }

def numCols (g : EditableGrid) : Nat := g.headers.length

def numRows (g : EditableGrid) : Nat := g.rows.length

/-- `EditableGrid::get_cell`. -/
def getCell (g : EditableGrid) (row col : Nat) : Option String :=
  g.rows[row]?.bind fun r => r[col]?

/-- `EditableGrid::get_header`. -/
def getHeader (g : EditableGrid) (col : Nat) : Option String :=
  g.headers[col]?

/-- `EditableGrid::push_undo`: push onto the undo stack, clear the redo
stack, and when the stack exceeds 100 entries evict the oldest
(`remove(0)`, i.e. `dropLast` in newest-first order). -/
def pushUndo (g : EditableGrid) (cmd : EditCommand) : EditableGrid :=
  let s := cmd :: g.undoStack
  { g with undoStack := if s.length > 100 then s.dropLast else s, redoStack := [] }

/-- `EditableGrid::set_cell`: silently a no-op when the cell does not exist;
otherwise record the old value, write the new one, mark modified. -/
def setCell (g : EditableGrid) (row col : Nat) (value : String) : EditableGrid :=
  match g.rows[row]? with
  | none => g
  | some r =>
    match r[col]? with
    | none => g
    | some oldValue =>
      let g' := { g with rows := g.rows.set row (r.set col value) }
      { pushUndo g' (EditCommand.setCell row col oldValue value) with modified := true }

/-- `EditableGrid::set_header`. -/
def setHeader (g : EditableGrid) (col : Nat) (name : String) : EditableGrid :=
  match g.headers[col]? with
  | none => g
  | some oldValue =>
    let g' := { g with headers := g.headers.set col name }
    { pushUndo g' (EditCommand.setHeader col oldValue name) with modified := true }

/-- `EditableGrid::add_row`: insert after `afterRow` when in range,
otherwise append; record the inserted position and (empty) data. -/
def addRow (g : EditableGrid) (afterRow : Option Nat) : EditableGrid :=
  let newRow := List.replicate g.numCols ""
  let p : List (List String) × Nat :=
    match afterRow with
    | some idx =>
      if idx < g.rows.length then (g.rows.insertIdx (idx + 1) newRow, idx + 1)
      else (g.rows ++ [newRow], g.rows.length)
    | none => (g.rows ++ [newRow], g.rows.length)
  let g' := { g with rows := p.1 }
  { pushUndo g' (EditCommand.insertRow p.2 newRow) with modified := true }

/-- `EditableGrid::delete_row`: a no-op when out of range; otherwise remove
the row, recording its content. -/
def deleteRow (g : EditableGrid) (row : Nat) : EditableGrid :=
  match g.rows[row]? with
  | none => g
  | some data =>
    let g' := { g with rows := g.rows.eraseIdx row }
    { pushUndo g' (EditCommand.deleteRow row data) with modified := true }

/-- `Vec::insert`: panics (`none`) when the index exceeds the length. -/
def insertIdxOpt {α : Type} (i : Nat) (a : α) (l : List α) : Option (List α) :=
  if i ≤ l.length then some (l.insertIdx i a) else none

/-- Insert an empty string at position `i` in every row
(the row loop of `add_column` / `apply_command` for InsertColumn). -/
def insertEmptyAll (i : Nat) : List (List String) → Option (List (List String))
  | [] => some []
  | r :: rs =>
    (insertIdxOpt i "" r).bind fun r' =>
      (insertEmptyAll i rs).bind fun rs' => some (r' :: rs')

/-- Insert the saved column values back, row by row: row `j` receives
`data.get(j).cloned().unwrap_or_default()` (the row loop of
`apply_inverse` for DeleteColumn; `data` is peeled in step with the rows). -/
def insertAllWithData (i : Nat) : List String → List (List String) → Option (List (List String))
  | _, [] => some []
  | data, r :: rs =>
    (insertIdxOpt i (data.headD "") r).bind fun r' =>
      (insertAllWithData i data.tail rs).bind fun rs' => some (r' :: rs')

/-- The insertion position of `add_column`: `after_col + 1`, or the current
column count when no position is given. -/
def insertPosOf (g : EditableGrid) (afterCol : Option Nat) : Nat :=
  match afterCol with
  | some c => c + 1
  | none => g.numCols

/-- `EditableGrid::add_column`: insert a generated header at
`after_col + 1` (or at the end), and an empty cell in every row. -/
def addColumn (g : EditableGrid) (afterCol : Option Nat) : Option EditableGrid :=
  let insertPos := insertPosOf g afterCol
  let header := "Column " ++ toString (g.numCols + 1)
  (insertIdxOpt insertPos header g.headers).bind fun headers' =>
    (insertEmptyAll insertPos g.rows).bind fun rows' =>
      some { pushUndo { g with headers := headers', rows := rows' }
               (EditCommand.insertColumn insertPos header) with modified := true }

/-- `EditableGrid::delete_column`: a no-op when out of range; otherwise
remove the header, and from every row long enough remove and save the cell
(`headers.remove(col)` returns the removed header, i.e. the element at
`col`). -/
def deleteColumn (g : EditableGrid) (col : Nat) : EditableGrid :=
  if col < g.numCols then
    let header := g.headers.getD col ""
    let data := g.rows.filterMap fun r => r[col]?
    let g' := { g with headers := g.headers.eraseIdx col,
                       rows := g.rows.map fun r => r.eraseIdx col }
    { pushUndo g' (EditCommand.deleteColumn col header data) with modified := true }
  else g

/-- `EditableGrid::apply_command` (redo direction).  It touches only
`headers` and `rows`, so it is modelled on that content. -/
def applyCommand (cmd : EditCommand) (headers : List String) (rows : List (List String)) :
    Option (List String × List (List String)) :=
  match cmd with
  | EditCommand.setCell row col _ newValue =>
    some (headers,
      match rows[row]? with
      | none => rows
      | some r =>
        match r[col]? with
        | none => rows
        | some _ => rows.set row (r.set col newValue))
  | EditCommand.setHeader col _ newValue =>
    some ((match headers[col]? with
      | none => headers
      | some _ => headers.set col newValue), rows)
  | EditCommand.insertRow idx data =>
    some (headers, if idx ≤ rows.length then rows.insertIdx idx data else rows)
  | EditCommand.deleteRow idx _ =>
    some (headers, if idx < rows.length then rows.eraseIdx idx else rows)
  | EditCommand.insertColumn idx header =>
    if idx ≤ headers.length then
      (insertEmptyAll idx rows).bind fun rows' => some (headers.insertIdx idx header, rows')
    else some (headers, rows)
  | EditCommand.deleteColumn idx _ _ =>
    if idx < headers.length then
      some (headers.eraseIdx idx, rows.map fun r => r.eraseIdx idx)
    else some (headers, rows)

/-- `EditableGrid::apply_inverse` (undo direction). -/
def applyInverse (cmd : EditCommand) (headers : List String) (rows : List (List String)) :
    Option (List String × List (List String)) :=
  match cmd with
  | EditCommand.setCell row col oldValue _ =>
    some (headers,
      match rows[row]? with
      | none => rows
      | some r =>
        match r[col]? with
        | none => rows
        | some _ => rows.set row (r.set col oldValue))
  | EditCommand.setHeader col oldValue _ =>
    some ((match headers[col]? with
      | none => headers
      | some _ => headers.set col oldValue), rows)
  | EditCommand.insertRow idx _ =>
    some (headers, if idx < rows.length then rows.eraseIdx idx else rows)
  | EditCommand.deleteRow idx data =>
    some (headers, if idx ≤ rows.length then rows.insertIdx idx data else rows)
  | EditCommand.insertColumn idx _ =>
    if idx < headers.length then
      some (headers.eraseIdx idx, rows.map fun r => r.eraseIdx idx)
    else some (headers, rows)
  | EditCommand.deleteColumn idx header data =>
    if idx ≤ headers.length then
      (insertAllWithData idx data rows).bind fun rows' =>
        some (headers.insertIdx idx header, rows')
    else some (headers, rows)

/-- `EditableGrid::undo`: pop the newest command, apply its inverse, push it
onto the redo stack; returns whether a command was available. -/
def undo (g : EditableGrid) : Option (EditableGrid × Bool) :=
  match g.undoStack with
  | [] => some (g, false)
  | cmd :: rest =>
    (applyInverse cmd g.headers g.rows).bind fun c =>
      some ({ g with headers := c.1, rows := c.2, undoStack := rest,
                     redoStack := cmd :: g.redoStack }, true)

/-- `EditableGrid::redo`: pop from the redo stack, re-apply, push back onto
the undo stack (without the history trim). -/
def redo (g : EditableGrid) : Option (EditableGrid × Bool) :=
  match g.redoStack with
  | [] => some (g, false)
  | cmd :: rest =>
    (applyCommand cmd g.headers g.rows).bind fun c =>
      some ({ g with headers := c.1, rows := c.2, redoStack := rest,
                     undoStack := cmd :: g.undoStack }, true)

def canUndo (g : EditableGrid) : Bool := !g.undoStack.isEmpty

def canRedo (g : EditableGrid) : Bool := !g.redoStack.isEmpty

def undoCount (g : EditableGrid) : Nat := g.undoStack.length

def redoCount (g : EditableGrid) : Nat := g.redoStack.length

/-- The six public mutating operations, as data. -/
inductive EditOp where
  | setCell (row col : Nat) (value : String)
  | setHeader (col : Nat) (name : String)
  | addRow (afterRow : Option Nat)
  | deleteRow (row : Nat)
  | addColumn (afterCol : Option Nat)
  | deleteColumn (col : Nat)
deriving DecidableEq, Repr

/-- Dispatch one public mutating operation (`none` = Rust panic, possible
only for `add_column` with an out-of-range `after_col`). -/
def applyOp (g : EditableGrid) : EditOp → Option EditableGrid
  | EditOp.setCell r c v => some (setCell g r c v)
  | EditOp.setHeader c v => some (setHeader g c v)
  | EditOp.addRow a => some (addRow g a)
  | EditOp.deleteRow r => some (deleteRow g r)
  | EditOp.addColumn a => addColumn g a
  | EditOp.deleteColumn c => some (deleteColumn g c)

/-- Whether the operation's indices are in range, so that it records an
`EditCommand` (out-of-range mutations are silent no-ops that record
nothing). -/
def recordsCmd (g : EditableGrid) : EditOp → Bool
  | EditOp.setCell r c _ =>
    match g.rows[r]? with
    | some row => decide (c < row.length)
    | none => false
  | EditOp.setHeader c _ => decide (c < g.headers.length)
  | EditOp.addRow _ => true
  | EditOp.deleteRow r => decide (r < g.rows.length)
  | EditOp.addColumn a =>
    match a with
    | some c => decide (c < g.headers.length)
    | none => true
  | EditOp.deleteColumn c => decide (c < g.headers.length)

/-- The data-model invariant on grid content: every row has exactly
`headers.length` fields. -/
def wfPair (headers : List String) (rows : List (List String)) : Bool :=
  rows.all fun r => r.length == headers.length

/-- The invariant on a grid. -/
def wfGrid (g : EditableGrid) : Bool :=
  wfPair g.headers g.rows

/-- One externally observable transition of a grid. -/
inductive Step : EditableGrid → EditableGrid → Prop where
  | op {g g' : EditableGrid} (o : EditOp) :
      applyOp g o = some g' → Step g g'
  | undoStep {g g' : EditableGrid} (b : Bool) :
      undo g = some (g', b) → Step g g'
  | redoStep {g g' : EditableGrid} (b : Bool) :
      redo g = some (g', b) → Step g g'

/-- Grids reachable through the public constructors and operations. -/
inductive Reachable : EditableGrid → Prop where
  | new (cols rowCount : Nat) : Reachable (new cols rowCount)
  | fromCsv (text : String) : Reachable (fromCsv text)
  | step (g g' : EditableGrid) : Reachable g → Step g g' → Reachable g'

/-- Grids reachable when `from_csv` is applied only to text whose rows all
match the header width (the amended C4 hypothesis). -/
inductive WFReachable : EditableGrid → Prop where
  | new (cols rowCount : Nat) : WFReachable (new cols rowCount)
  | fromCsv (text : String) (h : wfGrid (fromCsv text) = true) :
      WFReachable (fromCsv text)
  | step (g g' : EditableGrid) : WFReachable g → Step g g' → WFReachable g'

end EditableGrid

/-! ### List helper lemmas -/

/-- Writing back the value already stored at an index is the identity. -/
theorem set_getElem_self {α : Type} :
    ∀ (l : List α) (i : Nat) (v : α), l[i]? = some v → l.set i v = l
  | [], i, v, h => by simp at h
  | a :: t, 0, v, h => by
    simp at h
    simp [List.set, h]
  | a :: t, i + 1, v, h => by
    simp only [List.getElem?_cons_succ] at h
    simp only [List.set, List.cons.injEq, true_and]
    exact set_getElem_self t i v h

/-- Re-inserting the removed element restores the list. -/
theorem insertIdx_eraseIdx_self {α : Type} :
    ∀ (l : List α) (i : Nat) (v : α), l[i]? = some v → (l.eraseIdx i).insertIdx i v = l
  | [], i, v, h => by simp at h
  | a :: t, 0, v, h => by
    simp at h
    simp [List.eraseIdx, List.insertIdx, h]
  | a :: t, i + 1, v, h => by
    simp only [List.getElem?_cons_succ] at h
    simp only [List.eraseIdx, List.insertIdx_succ_cons, List.cons.injEq, true_and]
    exact insertIdx_eraseIdx_self t i v h

namespace EditableGrid

/-- Unpack the row-width invariant. -/
theorem wfPair_lengths {headers : List String} {rows : List (List String)}
    (h : wfPair headers rows = true) :
    ∀ r ∈ rows, r.length = headers.length := by
  intro r hr
  exact beq_iff_eq.mp (List.all_eq_true.mp h r hr)

/-! ### C9: out-of-range accesses -/

/-- C9 counterexample: `from_csv "a\n1,2"` yields a grid with one header but
a two-field row; column index 1 is beyond the grid's column count, yet
`get_cell` returns a value there and `set_cell` mutates the grid and marks
it modified, contradicting the out-of-range no-op claim. -/
theorem out_of_range_read_ragged_cex :
    numCols (fromCsv "a\n1,2") = 1 ∧
    getCell (fromCsv "a\n1,2") 0 1 = some "2" ∧
    (setCell (fromCsv "a\n1,2") 0 1 "x").rows = [["1", "x"]] ∧
    (setCell (fromCsv "a\n1,2") 0 1 "x").modified = true := by decide

/-- C9 amended: on a grid satisfying the row-width invariant, out-of-range
mutations are exact no-ops (headers, rows, both stacks and the modified flag
unchanged) and out-of-range reads return `none`. -/
theorem out_of_range_noop (g : EditableGrid) (row col : Nat) (v : String)
    (hwf : wfGrid g = true) :
    (g.numRows ≤ row ∨ g.numCols ≤ col →
      getCell g row col = none ∧ setCell g row col v = g) ∧
    (g.numCols ≤ col →
      getHeader g col = none ∧ setHeader g col v = g ∧ deleteColumn g col = g) ∧
    (g.numRows ≤ row → deleteRow g row = g) := by
  have hw := wfPair_lengths (show wfPair g.headers g.rows = true from hwf)
  refine ⟨?_, ?_, ?_⟩
  · intro hout
    cases hr : g.rows[row]? with
    | none => exact ⟨by simp [getCell, hr], by simp [setCell, hr]⟩
    | some r =>
      have hrow : row < g.rows.length := by
        by_contra hc
        rw [List.getElem?_eq_none (Nat.le_of_not_lt hc)] at hr
        cases hr
      have hcol : g.numCols ≤ col := by
        rcases hout with h | h
        · exact absurd hrow (Nat.not_lt.mpr h)
        · exact h
      have hrlen : r.length = g.headers.length := hw r (List.getElem?_mem hr)
      have hc : r[col]? = none := List.getElem?_eq_none (by rw [hrlen]; exact hcol)
      exact ⟨by simp [getCell, hr, hc], by simp [setCell, hr, hc]⟩
  · intro hout
    have hh : g.headers[col]? = none := List.getElem?_eq_none hout
    refine ⟨by simp [getHeader, hh], by simp [setHeader, hh], ?_⟩
    simp only [deleteColumn]
    rw [if_neg (Nat.not_lt.mpr hout)]
  · intro hout
    have hr : g.rows[row]? = none := List.getElem?_eq_none hout
    simp [deleteRow, hr]

/-- Concrete instance of `out_of_range_noop`. -/
theorem out_of_range_noop_witness :
    getCell (new 2 2) 5 5 = none ∧ setCell (new 2 2) 5 5 "x" = new 2 2 ∧
    getHeader (new 2 2) 5 = none ∧ deleteRow (new 2 2) 5 = new 2 2 := by
  have h := out_of_range_noop (new 2 2) 5 5 "x" (by decide)
  exact ⟨(h.1 (Or.inl (by decide))).1, (h.1 (Or.inl (by decide))).2,
    (h.2.1 (by decide)).1, h.2.2 (by decide)⟩

/-! ### C7: a new command clears the redo stack -/

/-- C7: any public mutating operation whose indices are in range (so that it
records a new `EditCommand`) leaves the redo stack empty; afterwards
`can_redo` is false and `redo()` returns false, no matter how many undos
preceded the edit. -/
theorem new_edit_clears_redo (g : EditableGrid) (o : EditOp) (g₁ : EditableGrid)
    (hrec : recordsCmd g o = true) (happ : applyOp g o = some g₁) :
    g₁.redoStack = [] ∧ canRedo g₁ = false ∧ redo g₁ = some (g₁, false) := by
  have hredo : g₁.redoStack = [] := by
    cases o with
    | setCell r c v =>
      cases hr : g.rows[r]? with
      | none => simp [recordsCmd, hr] at hrec
      | some row =>
        simp only [recordsCmd, hr, decide_eq_true_eq] at hrec
        obtain ⟨hcl, hold⟩ : ∃ x, row[c]? = some x :=
          ⟨_, List.getElem?_eq_getElem hrec⟩
        have hg : g₁ = setCell g r c v := by
          simpa [applyOp] using happ.symm
        subst hg
        simp [setCell, hr, hold, pushUndo]
    | setHeader c v =>
      simp only [recordsCmd, decide_eq_true_eq] at hrec
      obtain ⟨hcl, hold⟩ : ∃ x, g.headers[c]? = some x :=
        ⟨_, List.getElem?_eq_getElem hrec⟩
      have hg : g₁ = setHeader g c v := by simpa [applyOp] using happ.symm
      subst hg
      simp [setHeader, hold, pushUndo]
    | addRow a =>
      have hg : g₁ = addRow g a := by simpa [applyOp] using happ.symm
      subst hg
      rfl
    | deleteRow r =>
      simp only [recordsCmd, decide_eq_true_eq] at hrec
      obtain ⟨hcl, hold⟩ : ∃ x, g.rows[r]? = some x :=
        ⟨_, List.getElem?_eq_getElem hrec⟩
      have hg : g₁ = deleteRow g r := by simpa [applyOp] using happ.symm
      subst hg
      simp [deleteRow, hold, pushUndo]
    | addColumn a =>
      simp only [applyOp, addColumn, Option.bind_eq_some, Option.some.injEq] at happ
      obtain ⟨hs, hhs, rs, hrs, hg⟩ := happ
      rw [← hg]
      rfl
    | deleteColumn c =>
      simp only [recordsCmd, decide_eq_true_eq] at hrec
      have hg : g₁ = deleteColumn g c := by simpa [applyOp] using happ.symm
      subst hg
      simp only [deleteColumn, numCols]
      rw [if_pos hrec]
      rfl
  refine ⟨hredo, by simp [canRedo, hredo], ?_⟩
  simp [redo, hredo]

/-! ### C8: bounded history -/

/-- The undo stack produced by `push_undo`: push, then evict the oldest
entry (the list's last, in newest-first order) past 100 entries. -/
def pushShape (stack : List EditCommand) (cmd : EditCommand) : List EditCommand :=
  if (cmd :: stack).length > 100 then (cmd :: stack).dropLast else cmd :: stack

theorem pushShape_length_le (stack : List EditCommand) (cmd : EditCommand)
    (h : stack.length ≤ 100) : (pushShape stack cmd).length ≤ 100 := by
  unfold pushShape
  by_cases hc : (cmd :: stack).length > 100
  · rw [if_pos hc]
    simp only [List.length_dropLast, List.length_cons]
    omega
  · rw [if_neg hc]
    simp only [List.length_cons] at hc ⊢
    omega

/-- Every public mutating operation either leaves both stacks untouched
(out-of-range no-op) or pushes one command and clears the redo stack. -/
theorem applyOp_stack_shape (g : EditableGrid) (o : EditOp) (g' : EditableGrid)
    (h : applyOp g o = some g') :
    (g'.undoStack = g.undoStack ∧ g'.redoStack = g.redoStack) ∨
    (∃ cmd : EditCommand,
      g'.undoStack = pushShape g.undoStack cmd ∧ g'.redoStack = []) := by
  cases o with
  | setCell r c v =>
    have hg : g' = setCell g r c v := by simpa [applyOp] using h.symm
    subst hg
    cases hr : g.rows[r]? with
    | none => exact Or.inl (by simp [setCell, hr])
    | some row =>
      cases hc : row[c]? with
      | none => exact Or.inl (by simp [setCell, hr, hc])
      | some old =>
        refine Or.inr ⟨EditCommand.setCell r c old v, ?_, ?_⟩ <;>
          simp only [setCell, hr, hc] <;> rfl
  | setHeader c v =>
    have hg : g' = setHeader g c v := by simpa [applyOp] using h.symm
    subst hg
    cases hc : g.headers[c]? with
    | none => exact Or.inl (by simp [setHeader, hc])
    | some old =>
      refine Or.inr ⟨EditCommand.setHeader c old v, ?_, ?_⟩ <;>
        simp only [setHeader, hc] <;> rfl
  | addRow a =>
    have hg : g' = addRow g a := by simpa [applyOp] using h.symm
    subst hg
    exact Or.inr ⟨EditCommand.insertRow
      (match a with
       | some idx => if idx < g.rows.length then idx + 1 else g.rows.length
       | none => g.rows.length) (List.replicate g.numCols ""), by
        unfold addRow
        cases a with
        | none => rfl
        | some idx =>
          by_cases hidx : idx < g.rows.length
          · simp only [hidx, if_pos]
            rfl
          · simp only [hidx, if_neg, ite_false]
            rfl, rfl⟩
  | deleteRow r =>
    have hg : g' = deleteRow g r := by simpa [applyOp] using h.symm
    subst hg
    cases hr : g.rows[r]? with
    | none => exact Or.inl (by simp [deleteRow, hr])
    | some data =>
      refine Or.inr ⟨EditCommand.deleteRow r data, ?_, ?_⟩ <;>
        simp only [deleteRow, hr] <;> rfl
  | addColumn a =>
    simp only [applyOp, addColumn, Option.bind_eq_some, Option.some.injEq] at h
    obtain ⟨hs, hhs, rs, hrs, hg⟩ := h
    subst hg
    exact Or.inr ⟨EditCommand.insertColumn (insertPosOf g a)
      ("Column " ++ toString (g.numCols + 1)), rfl, rfl⟩
  | deleteColumn c =>
    have hg : g' = deleteColumn g c := by simpa [applyOp] using h.symm
    subst hg
    by_cases hc : c < g.numCols
    · refine Or.inr ⟨EditCommand.deleteColumn c (g.headers.getD c "")
        (g.rows.filterMap fun r => r[c]?), ?_, ?_⟩ <;>
        (simp only [deleteColumn]; rw [if_pos hc]) <;> rfl
    · refine Or.inl ?_
      simp only [deleteColumn]
      rw [if_neg hc]
      exact ⟨rfl, rfl⟩

/-- Both stacks of a freshly parsed grid are empty. -/
theorem fromCsv_stacks (text : String) :
    (fromCsv text).undoStack = [] ∧ (fromCsv text).redoStack = [] := by
  unfold fromCsv
  split <;> exact ⟨rfl, rfl⟩

/-- One step preserves the bound on the combined stack size. -/
theorem step_stack_sum {g g' : EditableGrid} (hs : Step g g')
    (h : g.undoStack.length + g.redoStack.length ≤ 100) :
    g'.undoStack.length + g'.redoStack.length ≤ 100 := by
  cases hs with
  | op o happ =>
    rcases applyOp_stack_shape g o g' happ with ⟨h1, h2⟩ | ⟨cmd, h1, h2⟩
    · rw [h1, h2]; exact h
    · rw [h1, h2]
      simp only [List.length_nil, Nat.add_zero]
      exact pushShape_length_le g.undoStack cmd (by omega)
  | undoStep b hu =>
    unfold undo at hu
    cases hstack : g.undoStack with
    | nil =>
      rw [hstack] at hu
      simp only [Option.some.injEq, Prod.mk.injEq] at hu
      rw [← hu.1]
      exact h
    | cons cmd rest =>
      rw [hstack] at hu
      simp only [Option.bind_eq_some, Option.some.injEq, Prod.mk.injEq] at hu
      obtain ⟨c, hc, hg', hb⟩ := hu
      rw [← hg']
      rw [hstack] at h
      simp only [List.length_cons] at h ⊢
      omega
  | redoStep b hr =>
    unfold redo at hr
    cases hstack : g.redoStack with
    | nil =>
      rw [hstack] at hr
      simp only [Option.some.injEq, Prod.mk.injEq] at hr
      rw [← hr.1]
      exact h
    | cons cmd rest =>
      rw [hstack] at hr
      simp only [Option.bind_eq_some, Option.some.injEq, Prod.mk.injEq] at hr
      obtain ⟨c, hc, hg', hb⟩ := hr
      rw [← hg']
      rw [hstack] at h
      simp only [List.length_cons] at h ⊢
      omega

/-- The combined stack size of any reachable grid is at most 100. -/
theorem reachable_stack_sum {g : EditableGrid} (h : Reachable g) :
    g.undoStack.length + g.redoStack.length ≤ 100 := by
  induction h with
  | new cols rowCount => simp [EditableGrid.new]
  | fromCsv text =>
    rw [(fromCsv_stacks text).1, (fromCsv_stacks text).2]
    simp
  | step g g' hr hs ih => exact step_stack_sum hs ih

/-- C8: on every reachable grid the number of available undo steps never
exceeds the history bound of 100; and when a new command is pushed onto a
full (100-entry) undo stack, the oldest entry is evicted and the count stays
at 100. -/
theorem history_bound :
    (∀ g : EditableGrid, Reachable g → undoCount g ≤ 100) ∧
    (∀ (g : EditableGrid) (cmd : EditCommand), undoCount g = 100 →
      (pushUndo g cmd).undoStack = (cmd :: g.undoStack).dropLast ∧
      undoCount (pushUndo g cmd) = 100) := by
  constructor
  · intro g hg
    have := reachable_stack_sum hg
    unfold undoCount
    omega
  · intro g cmd h
    unfold undoCount at h
    have hlen : (cmd :: g.undoStack).length > 100 := by
      simp only [List.length_cons, h]
      omega
    constructor
    · show (if (cmd :: g.undoStack).length > 100 then (cmd :: g.undoStack).dropLast
        else cmd :: g.undoStack) = (cmd :: g.undoStack).dropLast
      rw [if_pos hlen]
    · show (if (cmd :: g.undoStack).length > 100 then (cmd :: g.undoStack).dropLast
        else cmd :: g.undoStack).length = 100
      rw [if_pos hlen]
      simp only [List.length_dropLast, List.length_cons, h]

/-- A grid whose undo stack is exactly full. -/
def fullStackGrid : EditableGrid :=
  { headers := [], rows := [],
    undoStack := List.replicate 100 (EditCommand.insertRow 0 []),
    redoStack := [], modified := false }

/-- Concrete instance of `history_bound`. -/
theorem history_bound_witness :
    undoCount (new 1 1) ≤ 100 ∧
    (pushUndo fullStackGrid (EditCommand.insertRow 0 [])).undoStack =
      (EditCommand.insertRow 0 [] :: fullStackGrid.undoStack).dropLast :=
  ⟨history_bound.1 (new 1 1) (Reachable.new 1 1),
   (history_bound.2 fullStackGrid (EditCommand.insertRow 0 []) (by decide)).1⟩

/-- Concrete instance of `new_edit_clears_redo`. -/
theorem new_edit_clears_redo_witness :
    recordsCmd (new 1 1) (EditOp.setCell 0 0 "x") = true ∧
    canRedo (setCell (new 1 1) 0 0 "x") = false :=
  ⟨by decide,
    (new_edit_clears_redo (new 1 1) (EditOp.setCell 0 0 "x") _ (by decide) rfl).2.1⟩

/-! ### Round-trip lemmas for the six operations -/

/-- Inserting an empty cell in every row succeeds when every row is long
enough, and equals the element-wise insertion. -/
theorem insertEmptyAll_eq (i : Nat) :
    ∀ rows : List (List String), (∀ r ∈ rows, i ≤ r.length) →
      insertEmptyAll i rows = some (rows.map fun r => r.insertIdx i "")
  | [], _ => rfl
  | r :: rs, h => by
    have hr : i ≤ r.length := h r (List.mem_cons_self r rs)
    have ih := insertEmptyAll_eq i rs fun x hx => h x (List.mem_cons_of_mem r hx)
    simp only [insertEmptyAll, insertIdxOpt, if_pos hr, ih, List.map_cons]
    rfl

/-- Restoring a deleted column: re-inserting the saved values into the
shortened rows yields the original rows, provided the deleted index was in
range for every row. -/
theorem insertAllWithData_restore (i : Nat) :
    ∀ rows : List (List String), (∀ r ∈ rows, i < r.length) →
      insertAllWithData i (rows.filterMap fun r => r[i]?)
        (rows.map fun r => r.eraseIdx i) = some rows
  | [], _ => rfl
  | r :: rs, h => by
    have hi : i < r.length := h r (List.mem_cons_self r rs)
    obtain ⟨v, hv⟩ : ∃ x, r[i]? = some x := ⟨_, List.getElem?_eq_getElem hi⟩
    have ih := insertAllWithData_restore i rs fun x hx => h x (List.mem_cons_of_mem r hx)
    have hlen : i ≤ (r.eraseIdx i).length := by
      rw [List.length_eraseIdx_of_lt hi]
      omega
    simp only [List.filterMap_cons, hv, List.map_cons, insertAllWithData, List.headD_cons,
      insertIdxOpt, if_pos hlen, List.tail_cons, ih]
    rw [insertIdx_eraseIdx_self r i _ hv]
    rfl

/-- `push_undo` always leaves the pushed command on top of the undo stack. -/
theorem pushUndo_undo_shape (g : EditableGrid) (cmd : EditCommand) :
    ∃ t, (pushUndo g cmd).undoStack = cmd :: t := by
  show ∃ t, (if (cmd :: g.undoStack).length > 100 then (cmd :: g.undoStack).dropLast
    else cmd :: g.undoStack) = cmd :: t
  by_cases hc : (cmd :: g.undoStack).length > 100
  · rw [if_pos hc]
    cases hstack : g.undoStack with
    | nil =>
      rw [hstack] at hc
      simp at hc
    | cons c2 t2 => exact ⟨(c2 :: t2).dropLast, List.dropLast_cons₂⟩
  · rw [if_neg hc]
    exact ⟨g.undoStack, rfl⟩

/-- The master lemma behind undo/redo correctness: every in-range public
operation applied to an invariant-respecting grid succeeds, pushes a command
`cmd` and produces content `(hd, rs)` such that the content stays
invariant-respecting, `apply_inverse cmd` recovers the old content exactly,
and `apply_command cmd` replays the new content exactly. -/
theorem op_roundtrip (g : EditableGrid) (o : EditOp)
    (hwf : wfGrid g = true) (hrec : recordsCmd g o = true) :
    ∃ (cmd : EditCommand) (hd : List String) (rs : List (List String)),
      applyOp g o =
        some { pushUndo { g with headers := hd, rows := rs } cmd with modified := true } ∧
      wfPair hd rs = true ∧
      applyInverse cmd hd rs = some (g.headers, g.rows) ∧
      applyCommand cmd g.headers g.rows = some (hd, rs) := by
  have hw := wfPair_lengths (show wfPair g.headers g.rows = true from hwf)
  cases o with
  | setCell r c v =>
    cases hr : g.rows[r]? with
    | none => simp [recordsCmd, hr] at hrec
    | some row =>
      simp only [recordsCmd, hr, decide_eq_true_eq] at hrec
      obtain ⟨old, hold⟩ : ∃ x, row[c]? = some x := ⟨_, List.getElem?_eq_getElem hrec⟩
      have hrlt : r < g.rows.length := (List.getElem?_eq_some_iff.mp hr).1
      refine ⟨EditCommand.setCell r c old v, g.headers, g.rows.set r (row.set c v),
        ?_, ?_, ?_, ?_⟩
      · simp only [applyOp, setCell, hr, hold]
      · apply List.all_eq_true.mpr
        intro x hx
        rcases List.mem_or_eq_of_mem_set hx with hx | hx
        · exact beq_iff_eq.mpr (hw x hx)
        · subst hx
          rw [List.length_set]
          exact beq_iff_eq.mpr (hw row (List.getElem?_mem hr))
      · have h1 : (g.rows.set r (row.set c v))[r]? = some (row.set c v) :=
          List.getElem?_set_self hrlt
        have h2 : (row.set c v)[c]? = some v := List.getElem?_set_self hrec
        have hrow2 : (row.set c v).set c old = row := by
          rw [List.set_set]
          exact set_getElem_self row c old hold
        have hrows2 :
            (g.rows.set r (row.set c v)).set r ((row.set c v).set c old) = g.rows := by
          rw [hrow2, List.set_set]
          exact set_getElem_self g.rows r row hr
        simp only [applyInverse, h1, h2, hrows2]
      · simp only [applyCommand, hr, hold]
  | setHeader c v =>
    simp only [recordsCmd, decide_eq_true_eq] at hrec
    obtain ⟨old, hold⟩ : ∃ x, g.headers[c]? = some x := ⟨_, List.getElem?_eq_getElem hrec⟩
    refine ⟨EditCommand.setHeader c old v, g.headers.set c v, g.rows, ?_, ?_, ?_, ?_⟩
    · simp only [applyOp, setHeader, hold]
    · apply List.all_eq_true.mpr
      intro x hx
      rw [List.length_set]
      exact beq_iff_eq.mpr (hw x hx)
    · have h1 : (g.headers.set c v)[c]? = some v := List.getElem?_set_self hrec
      have hhd2 : (g.headers.set c v).set c old = g.headers := by
        rw [List.set_set]
        exact set_getElem_self g.headers c old hold
      simp only [applyInverse, h1, hhd2]
    · simp only [applyCommand, hold]
  | addRow a =>
    have hnew : (List.replicate g.numCols "").length = g.headers.length := by
      simp [numCols]
    have happend : ∀ k, k = g.rows.length →
        g.rows ++ [List.replicate g.numCols ""] =
          g.rows.insertIdx k (List.replicate g.numCols "") := by
      intro k hk
      subst hk
      rw [List.insertIdx_length_self]
    have hwfins : ∀ k, k ≤ g.rows.length →
        wfPair g.headers (g.rows.insertIdx k (List.replicate g.numCols "")) = true := by
      intro k hk
      apply List.all_eq_true.mpr
      intro x hx
      rcases (List.mem_insertIdx hk).mp hx with hx | hx
      · subst hx
        exact beq_iff_eq.mpr hnew
      · exact beq_iff_eq.mpr (hw x hx)
    have hinv : ∀ k, k ≤ g.rows.length →
        applyInverse (EditCommand.insertRow k (List.replicate g.numCols "")) g.headers
          (g.rows.insertIdx k (List.replicate g.numCols "")) =
          some (g.headers, g.rows) := by
      intro k hk
      have hlt : k < (g.rows.insertIdx k (List.replicate g.numCols "")).length := by
        rw [List.length_insertIdx k g.rows hk]
        omega
      simp only [applyInverse, if_pos hlt, Option.some.injEq, Prod.mk.injEq, true_and]
      exact List.eraseIdx_insertIdx k g.rows
    have hcmd : ∀ k, k ≤ g.rows.length →
        applyCommand (EditCommand.insertRow k (List.replicate g.numCols "")) g.headers
          g.rows =
          some (g.headers, g.rows.insertIdx k (List.replicate g.numCols "")) := by
      intro k hk
      simp only [applyCommand, if_pos hk]
    cases a with
    | none =>
      refine ⟨EditCommand.insertRow g.rows.length (List.replicate g.numCols ""),
        g.headers, g.rows ++ [List.replicate g.numCols ""], ?_, ?_, ?_, ?_⟩
      · simp only [applyOp, addRow]
      · rw [happend _ rfl]
        exact hwfins _ (Nat.le_refl _)
      · rw [happend _ rfl]
        exact hinv _ (Nat.le_refl _)
      · rw [happend _ rfl, hcmd _ (Nat.le_refl _)]
    | some idx =>
      by_cases hidx : idx < g.rows.length
      · refine ⟨EditCommand.insertRow (idx + 1) (List.replicate g.numCols ""),
          g.headers, g.rows.insertIdx (idx + 1) (List.replicate g.numCols ""), ?_,
          hwfins _ hidx, hinv _ hidx, hcmd _ hidx⟩
        simp only [applyOp, addRow, if_pos hidx]
      · refine ⟨EditCommand.insertRow g.rows.length (List.replicate g.numCols ""),
          g.headers, g.rows ++ [List.replicate g.numCols ""], ?_, ?_, ?_, ?_⟩
        · simp only [applyOp, addRow, if_neg hidx]
        · rw [happend _ rfl]
          exact hwfins _ (Nat.le_refl _)
        · rw [happend _ rfl]
          exact hinv _ (Nat.le_refl _)
        · rw [happend _ rfl, hcmd _ (Nat.le_refl _)]
  | deleteRow r =>
    simp only [recordsCmd, decide_eq_true_eq] at hrec
    obtain ⟨data, hdata⟩ : ∃ x, g.rows[r]? = some x := ⟨_, List.getElem?_eq_getElem hrec⟩
    refine ⟨EditCommand.deleteRow r data, g.headers, g.rows.eraseIdx r, ?_, ?_, ?_, ?_⟩
    · simp only [applyOp, deleteRow, hdata]
    · apply List.all_eq_true.mpr
      intro x hx
      exact beq_iff_eq.mpr (hw x (List.eraseIdx_subset g.rows r hx))
    · have hle : r ≤ (g.rows.eraseIdx r).length := by
        rw [List.length_eraseIdx_of_lt hrec]
        omega
      simp only [applyInverse, if_pos hle, Option.some.injEq, Prod.mk.injEq, true_and]
      exact insertIdx_eraseIdx_self g.rows r data hdata
    · simp only [applyCommand, if_pos hrec]
  | addColumn a =>
    have hk : insertPosOf g a ≤ g.headers.length := by
      cases a with
      | some c =>
        simp only [recordsCmd, decide_eq_true_eq] at hrec
        exact hrec
      | none => exact Nat.le_refl _
    have hrows : ∀ r ∈ g.rows, insertPosOf g a ≤ r.length := by
      intro r hm
      rw [hw r hm]
      exact hk
    refine ⟨EditCommand.insertColumn (insertPosOf g a) ("Column " ++ toString (g.numCols + 1)),
      g.headers.insertIdx (insertPosOf g a) ("Column " ++ toString (g.numCols + 1)),
      g.rows.map fun r => r.insertIdx (insertPosOf g a) "", ?_, ?_, ?_, ?_⟩
    · simp only [applyOp, addColumn, insertIdxOpt, if_pos hk, insertEmptyAll_eq _ _ hrows]
      rfl
    · apply List.all_eq_true.mpr
      intro x hx
      rcases List.mem_map.mp hx with ⟨r, hrm, hx⟩
      subst hx
      apply beq_iff_eq.mpr
      rw [List.length_insertIdx _ _ (hrows r hrm), List.length_insertIdx _ _ hk, hw r hrm]
    · have hlt : insertPosOf g a <
          (g.headers.insertIdx (insertPosOf g a)
            ("Column " ++ toString (g.numCols + 1))).length := by
        rw [List.length_insertIdx _ _ hk]
        omega
      simp only [applyInverse, if_pos hlt, Option.some.injEq, Prod.mk.injEq]
      constructor
      · exact List.eraseIdx_insertIdx _ _
      · rw [List.map_map]
        exact List.map_id'' (fun r => List.eraseIdx_insertIdx _ _) g.rows
    · simp only [applyCommand, if_pos hk, insertEmptyAll_eq _ _ hrows]
      rfl
  | deleteColumn c =>
    simp only [recordsCmd, decide_eq_true_eq] at hrec
    obtain ⟨hv, hhv⟩ : ∃ x, g.headers[c]? = some x := ⟨_, List.getElem?_eq_getElem hrec⟩
    have hgetd : g.headers.getD c "" = hv := by
      rw [List.getD_eq_getElem?_getD, hhv]
      rfl
    have hcrows : ∀ r ∈ g.rows, c < r.length := by
      intro r hm
      rw [hw r hm]
      exact hrec
    refine ⟨EditCommand.deleteColumn c (g.headers.getD c "")
      (g.rows.filterMap fun r => r[c]?), g.headers.eraseIdx c,
      g.rows.map fun r => r.eraseIdx c, ?_, ?_, ?_, ?_⟩
    · simp only [applyOp, deleteColumn, numCols]
      rw [if_pos hrec]
    · apply List.all_eq_true.mpr
      intro x hx
      rcases List.mem_map.mp hx with ⟨r, hrm, hx⟩
      subst hx
      apply beq_iff_eq.mpr
      rw [List.length_eraseIdx_of_lt (hcrows r hrm), List.length_eraseIdx_of_lt hrec,
        hw r hrm]
    · have hle : c ≤ (g.headers.eraseIdx c).length := by
        rw [List.length_eraseIdx_of_lt hrec]
        omega
      have hhd : (g.headers.eraseIdx c).insertIdx c (g.headers.getD c "") = g.headers := by
        rw [hgetd]
        exact insertIdx_eraseIdx_self g.headers c hv hhv
      simp only [applyInverse, if_pos hle, insertAllWithData_restore c g.rows hcrows, hhd]
      rfl
    · simp only [applyCommand]
      rw [if_pos hrec]

/-- `undo` on a grid whose undo stack starts with `cmd`. -/
theorem undo_cons (g : EditableGrid) (cmd : EditCommand) (t : List EditCommand)
    (hs : g.undoStack = cmd :: t) (c : List String × List (List String))
    (hc : applyInverse cmd g.headers g.rows = some c) :
    undo g = some ({ g with
      headers := c.1, rows := c.2, undoStack := t,
      redoStack := cmd :: g.redoStack }, true) := by
  unfold undo
  rw [hs]
  simp only [hc]
  rfl

/-- `redo` on a grid whose redo stack starts with `cmd`. -/
theorem redo_cons (g : EditableGrid) (cmd : EditCommand) (t : List EditCommand)
    (hs : g.redoStack = cmd :: t) (c : List String × List (List String))
    (hc : applyCommand cmd g.headers g.rows = some c) :
    redo g = some ({ g with
      headers := c.1, rows := c.2, redoStack := t,
      undoStack := cmd :: g.undoStack }, true) := by
  unfold redo
  rw [hs]
  simp only [hc]
  rfl

/-! ### C1: undo/redo round trip -/

/-- C1 counterexample: on the ragged grid `from_csv "h1,h2\na"` (reachable
through the public constructor), the in-range operation `delete_column 1`
followed immediately by `undo` yields rows `[["a", ""]]`, not the original
`[["a"]]` — the restore pads the short row with a fresh empty cell. -/
theorem undo_ragged_delete_column_cex :
    (fromCsv "h1,h2\na").rows = [["a"]] ∧
    recordsCmd (fromCsv "h1,h2\na") (EditOp.deleteColumn 1) = true ∧
    ((applyOp (fromCsv "h1,h2\na") (EditOp.deleteColumn 1)).bind
      fun g₁ => (undo g₁).map fun p => p.1.rows) = some [["a", ""]] ∧
    some [["a", ""]] ≠ some [[("a" : String)]] := by decide

/-- C1 amended: on a grid satisfying the row-width invariant, every
command-recording (in-range) edit operation succeeds; undoing it immediately
restores the headers and every row (hence row count, column count and every
cell) exactly, and redoing immediately after that undo restores the
post-operation headers and rows exactly. -/
theorem undo_redo_roundtrip (g : EditableGrid) (o : EditOp)
    (hwf : wfGrid g = true) (hrec : recordsCmd g o = true) :
    ∃ g₁ g₂ g₃ : EditableGrid,
      applyOp g o = some g₁ ∧
      undo g₁ = some (g₂, true) ∧ g₂.headers = g.headers ∧ g₂.rows = g.rows ∧
      redo g₂ = some (g₃, true) ∧ g₃.headers = g₁.headers ∧ g₃.rows = g₁.rows := by
  obtain ⟨cmd, hd, rs, happ, hwf1, hinv, hcmd⟩ := op_roundtrip g o hwf hrec
  obtain ⟨t, ht⟩ := pushUndo_undo_shape { g with headers := hd, rows := rs } cmd
  have hu := undo_cons
    { pushUndo { g with headers := hd, rows := rs } cmd with modified := true }
    cmd t ht (g.headers, g.rows) hinv
  exact ⟨_, _, _, happ, hu, rfl, rfl, redo_cons _ cmd _ rfl (hd, rs) hcmd, rfl, rfl⟩

/-- Concrete instance of `undo_redo_roundtrip`. -/
theorem undo_redo_roundtrip_witness :
    ∃ g₁ g₂ g₃ : EditableGrid,
      applyOp (new 2 2) (EditOp.deleteColumn 0) = some g₁ ∧
      undo g₁ = some (g₂, true) ∧ g₂.headers = (new 2 2).headers ∧
      g₂.rows = (new 2 2).rows ∧
      redo g₂ = some (g₃, true) ∧ g₃.headers = g₁.headers ∧ g₃.rows = g₁.rows :=
  undo_redo_roundtrip (new 2 2) (EditOp.deleteColumn 0) (by decide) (by decide)

/-! ### C4: the row-width invariant over reachable grids

The invariant cannot be proved from `wfGrid` alone: undoing a stack whose
commands do not fit the current content could insert rows of the wrong
width.  The inductive predicates below state that replaying the undo stack
(respectively the redo stack) from the current content is well-defined,
stays invariant-respecting, and round-trips exactly; they are preserved by
every public operation. -/

/-- The undo stack is coherent with the content `c`: applying the inverse of
each command in order succeeds, every intermediate content satisfies the
row-width invariant, and re-applying the command restores the content
exactly. -/
inductive UndoOk : List EditCommand → List String × List (List String) → Prop where
  | nil (c : List String × List (List String)) : UndoOk [] c
  | cons (cmd : EditCommand) (rest : List EditCommand)
      (c c' : List String × List (List String)) :
      applyInverse cmd c.1 c.2 = some c' →
      wfPair c'.1 c'.2 = true →
      applyCommand cmd c'.1 c'.2 = some c →
      UndoOk rest c' →
      UndoOk (cmd :: rest) c

/-- The redo stack is coherent with the content `c`, symmetrically. -/
inductive RedoOk : List EditCommand → List String × List (List String) → Prop where
  | nil (c : List String × List (List String)) : RedoOk [] c
  | cons (cmd : EditCommand) (rest : List EditCommand)
      (c c' : List String × List (List String)) :
      applyCommand cmd c.1 c.2 = some c' →
      wfPair c'.1 c'.2 = true →
      applyInverse cmd c'.1 c'.2 = some c →
      RedoOk rest c' →
      RedoOk (cmd :: rest) c

/-- The full grid invariant: invariant-respecting content plus coherent
stacks. -/
def Inv (g : EditableGrid) : Prop :=
  wfGrid g = true ∧ UndoOk g.undoStack (g.headers, g.rows) ∧
    RedoOk g.redoStack (g.headers, g.rows)

/-- Evicting the oldest (deepest) undo entry keeps the stack coherent. -/
theorem UndoOk.dropLastOk :
    ∀ {l : List EditCommand} {c : List String × List (List String)},
      UndoOk l c → UndoOk l.dropLast c := by
  intro l c h
  induction h with
  | nil c => exact UndoOk.nil c
  | cons cmd rest c c' h1 h2 h3 h4 ih =>
    cases rest with
    | nil => exact UndoOk.nil c
    | cons c2 t2 =>
      rw [List.dropLast_cons₂]
      exact UndoOk.cons cmd _ c c' h1 h2 h3 ih

/-- An operation whose indices are out of range is an exact no-op. -/
theorem applyOp_norecord (g : EditableGrid) (o : EditOp) (g' : EditableGrid)
    (h : applyOp g o = some g') (hrec : recordsCmd g o = false) : g' = g := by
  cases o with
  | setCell r c v =>
    have hg : g' = setCell g r c v := by simpa [applyOp] using h.symm
    subst hg
    cases hr : g.rows[r]? with
    | none => simp [setCell, hr]
    | some row =>
      simp only [recordsCmd, hr, decide_eq_false_iff_not] at hrec
      have hc : row[c]? = none := List.getElem?_eq_none (Nat.le_of_not_lt hrec)
      simp [setCell, hr, hc]
  | setHeader c v =>
    have hg : g' = setHeader g c v := by simpa [applyOp] using h.symm
    subst hg
    simp only [recordsCmd, decide_eq_false_iff_not] at hrec
    have hc : g.headers[c]? = none := List.getElem?_eq_none (Nat.le_of_not_lt hrec)
    simp [setHeader, hc]
  | addRow a => simp [recordsCmd] at hrec
  | deleteRow r =>
    have hg : g' = deleteRow g r := by simpa [applyOp] using h.symm
    subst hg
    simp only [recordsCmd, decide_eq_false_iff_not] at hrec
    have hc : g.rows[r]? = none := List.getElem?_eq_none (Nat.le_of_not_lt hrec)
    simp [deleteRow, hc]
  | addColumn a =>
    cases a with
    | none => simp [recordsCmd] at hrec
    | some c =>
      simp only [recordsCmd, decide_eq_false_iff_not] at hrec
      exfalso
      have hk : ¬ (insertPosOf g (some c) ≤ g.headers.length) := by
        simp only [insertPosOf, numCols]
        omega
      simp only [applyOp, addColumn, insertIdxOpt, if_neg hk, Option.none_bind] at h
      exact Option.noConfusion h
  | deleteColumn c =>
    have hg : g' = deleteColumn g c := by simpa [applyOp] using h.symm
    subst hg
    simp only [recordsCmd, decide_eq_false_iff_not] at hrec
    simp only [deleteColumn, numCols]
    rw [if_neg hrec]

/-- The invariant is preserved by every transition. -/
theorem inv_step {g g' : EditableGrid} (hi : Inv g) (hs : Step g g') : Inv g' := by
  obtain ⟨hwf, hundo, hredo⟩ := hi
  cases hs with
  | op o happ =>
    cases hrec : recordsCmd g o with
    | false =>
      rw [applyOp_norecord g o g' happ hrec]
      exact ⟨hwf, hundo, hredo⟩
    | true =>
      obtain ⟨cmd, hd, rs, happ2, hwf1, hinvp, hcmdp⟩ := op_roundtrip g o hwf hrec
      rw [happ] at happ2
      have hg := (Option.some.inj happ2).symm
      subst hg
      refine ⟨hwf1, ?_, RedoOk.nil _⟩
      have base : UndoOk (cmd :: g.undoStack) (hd, rs) :=
        UndoOk.cons cmd g.undoStack (hd, rs) (g.headers, g.rows) hinvp hwf hcmdp hundo
      show UndoOk (pushShape g.undoStack cmd) (hd, rs)
      unfold pushShape
      by_cases hlen : (cmd :: g.undoStack).length > 100
      · rw [if_pos hlen]
        exact base.dropLastOk
      · rw [if_neg hlen]
        exact base
  | undoStep b hu =>
    unfold undo at hu
    cases hstack : g.undoStack with
    | nil =>
      rw [hstack] at hu
      simp only [Option.some.injEq, Prod.mk.injEq] at hu
      obtain ⟨hg, hb⟩ := hu
      rw [← hg]
      exact ⟨hwf, hundo, hredo⟩
    | cons cmd rest =>
      rw [hstack] at hu hundo
      cases hundo with
      | cons _ _ _ c' h1 h2 h3 h4 =>
        have h1' : applyInverse cmd g.headers g.rows = some c' := h1
        simp only [h1', Option.some_bind, Option.some.injEq, Prod.mk.injEq] at hu
        obtain ⟨hg', hb⟩ := hu
        rw [← hg']
        exact ⟨h2, h4,
          RedoOk.cons cmd g.redoStack c' (g.headers, g.rows) h3 hwf h1' hredo⟩
  | redoStep b hr =>
    unfold redo at hr
    cases hstack : g.redoStack with
    | nil =>
      rw [hstack] at hr
      simp only [Option.some.injEq, Prod.mk.injEq] at hr
      obtain ⟨hg, hb⟩ := hr
      rw [← hg]
      exact ⟨hwf, hundo, hredo⟩
    | cons cmd rest =>
      rw [hstack] at hr hredo
      cases hredo with
      | cons _ _ _ c' h1 h2 h3 h4 =>
        have h1' : applyCommand cmd g.headers g.rows = some c' := h1
        simp only [h1', Option.some_bind, Option.some.injEq, Prod.mk.injEq] at hr
        obtain ⟨hg', hb⟩ := hr
        rw [← hg']
        exact ⟨h2,
          UndoOk.cons cmd g.undoStack c' (g.headers, g.rows) h3 hwf h1' hundo, h4⟩

/-- A freshly constructed grid satisfies the invariant. -/
theorem new_inv (cols rowCount : Nat) : Inv (new cols rowCount) := by
  refine ⟨?_, UndoOk.nil _, RedoOk.nil _⟩
  apply List.all_eq_true.mpr
  intro r hr
  rw [List.eq_of_mem_replicate hr]
  apply beq_iff_eq.mpr
  simp [new]

/-- A parsed grid whose rows match the header width satisfies the
invariant. -/
theorem fromCsv_inv (text : String) (h : wfGrid (fromCsv text) = true) :
    Inv (fromCsv text) := by
  refine ⟨h, ?_, ?_⟩
  · rw [(fromCsv_stacks text).1]
    exact UndoOk.nil _
  · rw [(fromCsv_stacks text).2]
    exact RedoOk.nil _

/-- The invariant holds on every grid reachable with width-respecting
parses. -/
theorem inv_reachable : ∀ {g : EditableGrid}, WFReachable g → Inv g := by
  intro g h
  induction h with
  | new cols rowCount => exact new_inv cols rowCount
  | fromCsv text hwf => exact fromCsv_inv text hwf
  | step g g' hr hs ih => exact inv_step ih hs

/-- C4 counterexample: `from_csv` does not normalize ragged input — parsing
`"a,b\n1,2,3"` yields two headers but a three-field row, violating the
invariant right at the public constructor. -/
theorem from_csv_ragged_breaks_invariant :
    (fromCsv "a,b\n1,2,3").headers.length = 2 ∧
    (fromCsv "a,b\n1,2,3").rows = [["1", "2", "3"]] ∧
    wfGrid (fromCsv "a,b\n1,2,3") = false := by decide

/-- C4 amended: every grid reachable through `new`, through `from_csv` on
text whose parsed rows all have exactly the header width, and any sequence
of the public operations (including undo and redo) satisfies the invariant
that every row has exactly `headers.length` fields. -/
theorem reachable_grid_wf (g : EditableGrid) (h : WFReachable g) :
    wfGrid g = true :=
  (inv_reachable h).1

/-- Concrete instance of `reachable_grid_wf`. -/
theorem reachable_grid_wf_witness : wfGrid (new 3 2) = true :=
  reachable_grid_wf (new 3 2) (WFReachable.new 3 2)

/-! ### C10: fields are trimmed by the grid parser -/

/-- The first element surviving `dropWhile p` fails `p`. -/
theorem dropWhile_head_false {α : Type} (p : α → Bool) :
    ∀ (l : List α) (a : α), (List.dropWhile p l).head? = some a → p a = false
  | [], a, h => by simp at h
  | b :: t, a, h => by
    by_cases hb : p b
    · rw [List.dropWhile_cons_of_pos hb] at h
      exact dropWhile_head_false p t a h
    · rw [List.dropWhile_cons_of_neg hb] at h
      simp only [List.head?_cons, Option.some.injEq] at h
      subst h
      exact Bool.eq_false_iff.mpr hb

/-- `str::trim` is idempotent. -/
theorem trimChars_idem (l : List Char) : trimChars (trimChars l) = trimChars l := by
  have heq : ∀ x : List Char,
      trimChars x = List.rdropWhile wsChar (List.dropWhile wsChar x) := fun _ => rfl
  rw [heq, heq]
  have hfix : List.dropWhile wsChar
      (List.rdropWhile wsChar (List.dropWhile wsChar l)) =
      List.rdropWhile wsChar (List.dropWhile wsChar l) := by
    cases hrd : List.rdropWhile wsChar (List.dropWhile wsChar l) with
    | nil => simp
    | cons x xs =>
      obtain ⟨s, hs⟩ := List.rdropWhile_prefix wsChar (List.dropWhile wsChar l)
      rw [hrd] at hs
      have hx : (List.dropWhile wsChar l).head? = some x := by
        rw [← hs]
        rfl
      rw [List.dropWhile_cons_of_neg]
      simp [dropWhile_head_false wsChar l x hx]
  rw [hfix]
  exact List.rdropWhile_idempotent wsChar (List.dropWhile wsChar l)

/-- Every field emitted by the parsing loop is a fixed point of trim. -/
theorem parseLoop_fields_trimmed (n : Nat) :
    ∀ (l cur : List Char) (inq : Bool), l.length < n →
      ∀ f ∈ parseLoop l cur inq, trimChars f.data = f.data := by
  induction n with
  | zero =>
    intro l cur inq h
    exact (Nat.not_lt_zero _ h).elim
  | succ n ih =>
    intro l cur inq hlen f hf
    rw [parseLoop.eq_def] at hf
    split at hf
    · simp only [List.mem_singleton] at hf
      subst hf
      exact trimChars_idem _
    · exact ih _ _ _ (by simp only [List.length_cons] at hlen; omega) f hf
    · exact ih _ _ _ (by simp only [List.length_cons] at hlen; omega) f hf
    · exact ih _ _ _ (by simp only [List.length_cons] at hlen; omega) f hf
    · rcases List.mem_cons.mp hf with hf | hf
      · subst hf
        exact trimChars_idem _
      · exact ih _ _ _ (by simp only [List.length_cons] at hlen; omega) f hf
    · exact ih _ _ _ (by simp only [List.length_cons] at hlen; omega) f hf

/-- C10: every header field and every cell field produced by
`EditableGrid::from_csv` has its leading and trailing whitespace removed
(each stored field is a fixed point of trim), and concretely
`" a , b"` parses to the headers `["a", "b"]`. -/
theorem from_csv_fields_trimmed :
    (∀ (text s : String), s ∈ (fromCsv text).headers → trimChars s.data = s.data) ∧
    (∀ (text : String) (row : List String) (s : String),
      row ∈ (fromCsv text).rows → s ∈ row → trimChars s.data = s.data) ∧
    (fromCsv " a , b").headers = ["a", "b"] := by
  refine ⟨?_, ?_, by decide⟩
  · intro text s hs
    unfold fromCsv at hs
    cases hl : rustLines text.data with
    | nil =>
      rw [hl] at hs
      simp at hs
    | cons h t =>
      rw [hl] at hs
      simp only at hs
      exact parseLoop_fields_trimmed (h.length + 1) h [] false (Nat.lt_succ_self _) s hs
  · intro text row s hrow hs
    unfold fromCsv at hrow
    cases hl : rustLines text.data with
    | nil =>
      rw [hl] at hrow
      simp at hrow
    | cons h t =>
      rw [hl] at hrow
      simp only at hrow
      rcases List.mem_map.mp hrow with ⟨line, hline, hrow⟩
      subst hrow
      exact parseLoop_fields_trimmed (line.length + 1) line [] false (Nat.lt_succ_self _) s hs

/-- Concrete instance of `from_csv_fields_trimmed`. -/
theorem from_csv_fields_trimmed_witness :
    trimChars ("a" : String).data = ("a" : String).data :=
  from_csv_fields_trimmed.1 " a , b" "a" (by decide)

end EditableGrid

end CSVit
